import Mathlib

/-!
Verification of the NewsTrace scraper (`Backend/scrapper.py`).

The Python source is shallowly embedded below: character/string helpers
model the Python string methods and the concrete regular expressions the
scraper uses (ASCII fragment; the scraper's own data is ASCII), dicts are
modelled as insertion-ordered association lists (Python 3.7+ dict
semantics), and the crawl/aggregation loops are modelled as structural
recursions over the fetched data.
-/

namespace NewsTrace

/-- Python whitespace characters, as matched by `str.strip()`, `str.split()`
and the regex class `\s` (ASCII fragment). -/
def pyIsWs (c : Char) : Bool :=
  c = ' ' || c = '\t' || c = '\n' || c = '\x0d' || c = Char.ofNat 11 || c = Char.ofNat 12

/-- Drop trailing characters satisfying the whitespace predicate
(structural form of the right half of Python `str.strip()`). -/
def dropTrail : List Char → List Char
  | [] => []
  | c :: rest =>
    match dropTrail rest with
    | [] => if pyIsWs c then [] else [c]
    | d :: ds => c :: d :: ds

/-- Python `str.strip()` on a character list: drop leading and trailing
whitespace. -/
def pyStrip (l : List Char) : List Char :=
  dropTrail (l.dropWhile pyIsWs)

/-- Python `str.strip()` on strings. -/
def pyStripStr (s : String) : String :=
  ⟨pyStrip s.data⟩

/-- Zero-width characters removed by `normalize_name`
(regex `[​‌‍]`, scrapper.py line 63). -/
def isZW (c : Char) : Bool :=
  c = Char.ofNat 0x200b || c = Char.ofNat 0x200c || c = Char.ofNat 0x200d

/-- Punctuation replaced by a space in `normalize_name`
(scrapper.py line 64). -/
def isPunct (c : Char) : Bool :=
  c = '.' || c = ',' || c = '/' || c = '(' || c = ')' || c = '[' || c = ']' ||
  c = '*' || c = '"' || c = Char.ofNat 0x201c || c = Char.ofNat 0x201d ||
  c = Char.ofNat 39 || c = Char.ofNat 96

/-- Whether the regex `^(By[:\s]+)` (case-insensitive; scrapper.py line 62)
matches at the start of the list. -/
def hasByPfx (l : List Char) : Bool :=
  match l with
  | b :: y :: c :: _ =>
    (b = 'B' || b = 'b') && (y = 'y' || y = 'Y') && (c = ':' || pyIsWs c)
  | _ => false

/-- Result of `re.sub(r'^(By[:\s]+)', '', s, flags=re.I)`: when the anchored
pattern matches, the leading `By` plus the maximal run of colons/whitespace
is removed; otherwise the input is unchanged. -/
def dropByPfx (l : List Char) : List Char :=
  if hasByPfx l then
    match l with
    | _ :: _ :: rest => rest.dropWhile (fun c => c = ':' || pyIsWs c)
    | _ => l
  else l

/-- Replace each maximal run of characters satisfying `p` by a single space
(the effect of `re.sub(r'[...]+', ' ', s)`); the flag records whether the
previous character belonged to such a run. -/
def collapseAux (p : Char → Bool) : Bool → List Char → List Char
  | _, [] => []
  | prev, c :: rest =>
    if p c then
      if prev then collapseAux p true rest
      else ' ' :: collapseAux p true rest
    else c :: collapseAux p false rest

/-- Python `re.sub(r'\s+', ' ', s)` (scrapper.py line 65). -/
def collapseWs (l : List Char) : List Char :=
  collapseAux pyIsWs false l

/-- ASCII upper-to-lower case table, the fragment of Python case mapping
the scraper's data exercises. -/
def caseTable : List (Char × Char) :=
  [('A', 'a'), ('B', 'b'), ('C', 'c'), ('D', 'd'), ('E', 'e'), ('F', 'f'),
   ('G', 'g'), ('H', 'h'), ('I', 'i'), ('J', 'j'), ('K', 'k'), ('L', 'l'),
   ('M', 'm'), ('N', 'n'), ('O', 'o'), ('P', 'p'), ('Q', 'q'), ('R', 'r'),
   ('S', 's'), ('T', 't'), ('U', 'u'), ('V', 'v'), ('W', 'w'), ('X', 'x'),
   ('Y', 'y'), ('Z', 'z')]

/-- Lower-case an ASCII letter, leaving every other character unchanged. -/
def lowChar (c : Char) : Char :=
  (caseTable.lookup c).getD c

/-- Upper-case an ASCII letter, leaving every other character unchanged. -/
def upChar (c : Char) : Char :=
  ((caseTable.map (fun p => (p.2, p.1))).lookup c).getD c

/-- Python `str.lower()` (ASCII fragment), written over the case table so
that it evaluates by kernel reduction. -/
def pyLower (s : String) : String :=
  ⟨s.data.map lowChar⟩

/-- One character of Python `str.title()`: a letter is uppercased when the
previous character is not a letter, lowercased otherwise; non-letters pass
through (ASCII fragment). -/
def titleChar (prevAlpha : Bool) (c : Char) : Char :=
  if c.isAlpha then (if prevAlpha then lowChar c else upChar c) else c

/-- Python `str.title()` body, carrying whether the previous character was a
letter. -/
def titleAux : Bool → List Char → List Char
  | _, [] => []
  | p, c :: rest => titleChar p c :: titleAux c.isAlpha rest

/-- Python `str.title()` (ASCII fragment). -/
def pyTitle (l : List Char) : List Char :=
  titleAux false l

/-- First half of the `normalize_name` cleaning pipeline (scrapper.py
lines 61-64): strip, drop a leading `By` prefix, remove zero-width
characters, replace punctuation by spaces. -/
def preClean (s : String) : List Char :=
  ((dropByPfx (pyStrip s.data)).filter (fun c => !isZW c)).map
    (fun c => if isPunct c then ' ' else c)

/-- Cleaning pipeline of `normalize_name` before the length check and
title-casing (scrapper.py lines 61-65): the first half followed by
whitespace collapsing and a final strip. -/
def cleanedName (s : String) : List Char :=
  pyStrip (collapseWs (preClean s))

/-- Embedding of `normalize_name` (scrapper.py lines 58-68): clean the
string, return the empty string when at most one character remains,
otherwise title-case the result. -/
def normalize_name (s : String) : String :=
  if (cleanedName s).length ≤ 1 then "" else ⟨pyTitle (cleanedName s)⟩

/-- ASCII digit test, the model of the regex class `\d`. -/
def isDig (c : Char) : Bool :=
  '0' ≤ c && c ≤ '9'

/-- Numeric value of an ASCII digit. -/
def digVal (c : Char) : Nat :=
  c.toNat - 48

/-- Date separator (dash or slash) of the year-month-day regex of
`parse_iso`. -/
def isDateSep (c : Char) : Bool :=
  c = '-' || c = '/'

/-- Attempt to match one or two digits followed by a date separator at the
head of the list (greedy with
backtracking, as the Python regex engine does): return the matched number
and the characters after the separator. -/
def ddSep : List Char → Option (Nat × List Char)
  | e :: f :: g :: rest =>
    if isDig e && isDig f && isDateSep g then some (10 * digVal e + digVal f, rest)
    else if isDig e && isDateSep f then some (digVal e, g :: rest)
    else none
  | [e, f] => if isDig e && isDateSep f then some (digVal e, []) else none
  | _ => none

/-- Attempt to match a final greedy `\d{1,2}` at the head of the list. -/
def ddEnd : List Char → Option Nat
  | e :: f :: _ =>
    if isDig e && isDig f then some (10 * digVal e + digVal f)
    else if isDig e then some (digVal e)
    else none
  | [e] => if isDig e then some (digVal e) else none
  | [] => none

/-- Attempt to match the pattern four digits, separator, one or two digits,
separator, one or two digits at the head of the list, returning the three
numeric groups. -/
def matchYMD (l : List Char) : Option (Nat × Nat × Nat) :=
  match l with
  | a :: b :: c :: d :: s :: rest =>
    if isDig a && isDig b && isDig c && isDig d && isDateSep s then
      match ddSep rest with
      | some (m, rest2) =>
        match ddEnd rest2 with
        | some dy =>
          some (1000 * digVal a + 100 * digVal b + 10 * digVal c + digVal d, m, dy)
        | none => none
      | none => none
    else none
  | _ => none

/-- Python `re.search` for the date pattern: try each start position from
the left, taking the leftmost match. -/
def searchYMD : List Char → Option (Nat × Nat × Nat)
  | [] => none
  | c :: rest =>
    match matchYMD (c :: rest) with
    | some r => some r
    | none => searchYMD rest

/-- Gregorian leap-year rule used by `datetime.date`. -/
def isLeap (y : Nat) : Bool :=
  y % 4 = 0 && (y % 100 ≠ 0 || y % 400 = 0)

/-- Number of days in a month, as `datetime.date` validates it. -/
def daysInMonth (y m : Nat) : Nat :=
  if m = 2 then (if isLeap y then 29 else 28)
  else if m = 4 || m = 6 || m = 9 || m = 11 then 30
  else 31

/-- Validity check performed by the `datetime.date` constructor (a failed
construction is caught and mapped to `None` in `parse_iso`); the year is at
most 9999 by construction of the four-digit group. -/
def validDate (y m d : Nat) : Bool :=
  1 ≤ y && 1 ≤ m && m ≤ 12 && 1 ≤ d && d ≤ daysInMonth y m

/-- Embedding of the inner `parse_iso` of `_prefer_newer` (scrapper.py
lines 75-83): search for a year-month-day pattern and build a date,
returning `none` when the pattern is absent or the date is invalid. -/
def parse_iso (s : String) : Option (Nat × Nat × Nat) :=
  match searchYMD s.data with
  | some (y, m, d) => if validDate y m d then some (y, m, d) else none
  | none => none

/-- Chronological strict order on (year, month, day) triples, the order
`datetime.date` comparison uses. -/
def dateLt (a b : Nat × Nat × Nat) : Bool :=
  a.1 < b.1 || (a.1 = b.1 && (a.2.1 < b.2.1 || (a.2.1 = b.2.1 && a.2.2 < b.2.2)))

/-- Embedding of `_prefer_newer` (scrapper.py lines 70-91): an empty or
`Unknown` candidate never wins; any known candidate beats an empty or
`Unknown` existing date; when both parse, the chronologically later one
wins; otherwise the longer string wins. -/
def prefer_newer (existing_date candidate_date : String) : Bool :=
  if candidate_date = "" || candidate_date = "Unknown" then false
  else if existing_date = "" || existing_date = "Unknown" then true
  else
    match parse_iso candidate_date, parse_iso existing_date with
    | some cd, some ed => dateLt ed cd
    | _, _ => existing_date.length < candidate_date.length

/-- Substring test on character lists, the model of Python `in` on
strings. -/
def subList (needle : List Char) : List Char → Bool
  | [] => needle.isEmpty
  | c :: rest => needle.isPrefixOf (c :: rest) || subList needle rest

/-- Python `needle in s` on strings. -/
def inStr (needle s : String) : Bool :=
  subList needle.data s.data

/-- Characters collapsed to a space by `normalize_beat`
(regex `[\s\|/,&]+`, scrapper.py line 236). -/
def beatSepWs (c : Char) : Bool :=
  pyIsWs c || c = '|' || c = '/' || c = ',' || c = '&'

/-- Python `str.split()` with no separator: whitespace-delimited tokens,
empties dropped; `cur` accumulates the current token reversed. -/
def splitWsAux (cur : List Char) : List Char → List (List Char)
  | [] => if cur.isEmpty then [] else [cur.reverse]
  | c :: rest =>
    if pyIsWs c then
      if cur.isEmpty then splitWsAux [] rest
      else cur.reverse :: splitWsAux [] rest
    else splitWsAux (c :: cur) rest

/-- Python `str.split()` with no separator. -/
def splitWs (l : List Char) : List (List Char) :=
  splitWsAux [] l

/-- Python `str.capitalize()`: first character uppercased, the rest
lowercased (ASCII fragment). -/
def pyCapitalize (l : List Char) : List Char :=
  match l with
  | [] => []
  | c :: rest => upChar c :: rest.map lowChar

/-- Beat synonym table of `normalize_beat` (scrapper.py lines 238-260), in
source order; Python dicts iterate in insertion order. -/
def beatMapping : List (String × String) :=
  [("breaking news", "Breaking"), ("breaking world news", "Breaking"),
   ("breaking news india", "Breaking"), ("world news", "World"),
   ("world", "World"), ("politics", "Politics"), ("business", "Business"),
   ("economy", "Business"), ("technology", "Technology"),
   ("tech", "Technology"), ("sport", "Sports"), ("sports", "Sports"),
   ("editorial", "Editorial"), ("opinion", "Opinion"),
   ("analysis", "Analysis"), ("entertainment", "Entertainment"),
   ("lifestyle", "Lifestyle"), ("science", "Science"), ("health", "Health"),
   ("travel", "Travel"), ("news", "News")]

/-- Embedding of `normalize_beat` (scrapper.py lines 232-265): lower-case
and clean the label, look for the first synonym-table key occurring as a
substring, else capitalize the first whitespace token, else `Unknown`. -/
def normalize_beat (raw : String) : String :=
  if raw = "" then "Unknown"
  else
    let s0 := pyLower (pyStripStr raw)
    let s1 := collapseAux beatSepWs false s0.data
    let s2 := s1.filter (fun c => ('a' ≤ c && c ≤ 'z') || ('0' ≤ c && c ≤ '9') || c = ' ')
    match beatMapping.find? (fun kv => subList kv.1.data s2) with
    | some kv => kv.2
    | none =>
      match splitWs s2 with
      | [] => "Unknown"
      | t :: _ => ⟨pyCapitalize t⟩

/-- Working per-author record held in `profiles_map` by `extract_profiles`
(scrapper.py lines 387-395). -/
structure Entry where
  name : String
  beat_counts : List (String × Nat)
  beat : String
  latest_article : String
  article_url : String
  publication_date : String
  articles_count : Nat
deriving Repr, DecidableEq

/-- Finalized per-author record emitted by `_finalize_profiles`
(scrapper.py lines 427-434). -/
structure Profile where
  name : String
  beat : String
  latest_article : String
  article_url : String
  publication_date : String
  articles_count : Nat
deriving Repr, DecidableEq

/-- Python dicts are modelled as insertion-ordered association lists. -/
abbrev PyDict (β : Type) := List (String × β)

/-- Python `d.get(k)` / `d[k]`: first binding of the key. -/
def dGet {β : Type} (m : PyDict β) (k : String) : Option β :=
  m.lookup k

/-- Python `d[k] = v`: replace the value in place when the key is present
(keeping its position, as Python 3.7+ dicts do), otherwise append a new
binding. -/
def dSet {β : Type} (m : PyDict β) (k : String) (v : β) : PyDict β :=
  if (m.lookup k).isSome then
    m.map (fun kv => if kv.1 = k then (k, v) else kv)
  else m ++ [(k, v)]

/-- The in-memory profile map of `extract_profiles`. -/
abbrev ProfilesMap := PyDict Entry

/-- Entry created by `extract_profiles` on the first observation of a name
(scrapper.py lines 387-395). -/
def newEntry (url title pub_date sect norm : String) : Entry :=
  { name := norm
    beat_counts := if sect ≠ "" then [(sect, 1)] else []
    beat := if sect ≠ "" then sect else "Unknown"
    latest_article := if title ≠ "" then title else "Unknown"
    article_url := url
    publication_date := if pub_date ≠ "" then pub_date else "Unknown"
    articles_count := 1 }

/-- Update applied by `extract_profiles` to an existing entry (scrapper.py
lines 396-403): increment the article count, bump the observed beat's
count, and replace the latest title/URL/date together when the candidate
date is preferred. -/
def updatedEntry (url title pub_date sect : String) (e : Entry) : Entry :=
  let e1 : Entry :=
    { e with
      articles_count := e.articles_count + 1
      beat_counts :=
        if sect ≠ "" then
          dSet e.beat_counts sect ((dGet e.beat_counts sect).getD 0 + 1)
        else e.beat_counts }
  if prefer_newer e1.publication_date pub_date then
    { e1 with publication_date := pub_date, latest_article := title,
              article_url := url }
  else e1

/-- Embedding of the per-author merge step of `extract_profiles`
(scrapper.py lines 380-403): normalize the author name, skip it when
normalization yields the empty string, otherwise create or update the
entry keyed by the lower-cased normalized name. -/
def mergeAuthor (url title pub_date sect : String) (m : ProfilesMap)
    (author : String) : ProfilesMap :=
  if normalize_name author = "" then m
  else
    match dGet m (pyLower (normalize_name author)) with
    | none =>
      dSet m (pyLower (normalize_name author))
        (newEntry url title pub_date sect (normalize_name author))
    | some e =>
      dSet m (pyLower (normalize_name author))
        (updatedEntry url title pub_date sect e)

/-- Metadata extracted from one successfully fetched page: the result of
`extract_authors`, `extract_title`, `extract_pub_date` and
`extract_section` (scrapper.py lines 375-378). -/
structure PageData where
  authors : List String
  title : String
  pub_date : String
  sect : String
deriving Repr, DecidableEq

/-- Embedding of the per-page body of the `extract_profiles` loop
(scrapper.py lines 379-403): the section label is passed once more through
`normalize_beat`, then each extracted author is merged. -/
def processPage (m : ProfilesMap) (url : String) (pg : PageData) : ProfilesMap :=
  let s := normalize_beat pg.sect
  pg.authors.foldl (mergeAuthor url pg.title pg.pub_date s) m

/-- Embedding of the URL loop of `extract_profiles` (scrapper.py lines
365-412): each article URL is paired with `none` when its fetch is skipped
or fails (robots disallow, non-200 status, raised exception) and with the
extracted `PageData` otherwise; the loop breaks before processing the next
URL once the map holds at least `min_profiles` entries. The periodic
checkpoint write (scrapper.py lines 406-410) is not modelled: it adds or
removes no map entry and changes no article count, though its in-place
stripping of per-entry working state inside `_finalize_profiles` can make
a later page raise part-way through its author loop in the source — such a
page is approximated here by the page-level `none` skip. -/
def extractLoop (min_profiles : Nat) : ProfilesMap → List (String × Option PageData) → ProfilesMap
  | m, [] => m
  | m, (url, pg?) :: rest =>
    if min_profiles ≤ m.length then m
    else
      match pg? with
      | none => extractLoop min_profiles m rest
      | some pg => extractLoop min_profiles (processPage m url pg) rest

/-- Display-name blacklist of `_finalize_profiles` (scrapper.py line 418). -/
def blacklist : List String :=
  ["contributors", "staff", "editorial", "team", "unknown", "s"]

/-- Python `max(items, key=value)` over a non-empty association list: the
first binding with the (strictly) greatest value wins. -/
def maxByCount (best : String × Nat) : List (String × Nat) → String × Nat
  | [] => best
  | p :: rest => maxByCount (if best.2 < p.2 then p else best) rest

/-- Whether `_finalize_profiles` keeps an entry: its display name, stripped
and lower-cased, is non-empty and not blacklisted (scrapper.py
lines 420-422). -/
def keepEntry (v : Entry) : Bool :=
  let name_low := pyLower (pyStripStr v.name)
  !(name_low = "" || blacklist.contains name_low)

/-- Per-entry output record built by `_finalize_profiles` (scrapper.py
lines 423-434): the displayed beat becomes the highest-count beat when the
beat-count map is non-empty. -/
def finalizeEntry (v : Entry) : Profile :=
  let beat :=
    match v.beat_counts with
    | [] => v.beat
    | h :: t =>
      let best := (maxByCount h t).1
      if best = "" then "Unknown" else best
  { name := v.name
    beat := beat
    latest_article := if v.latest_article ≠ "" then v.latest_article else "Unknown"
    article_url := v.article_url
    publication_date := v.publication_date
    articles_count := v.articles_count }

/-- Sort key order of `_finalize_profiles` (scrapper.py line 435):
descending article count, then ascending display name. -/
def profLe (a b : Profile) : Bool :=
  b.articles_count < a.articles_count ||
    (a.articles_count = b.articles_count && decide (a.name ≤ b.name))

/-- Insert an element into a list sorted by `le`, before the first element
it compares at-most-equal to (the stable position). -/
def insertLe {α : Type} (le : α → α → Bool) (a : α) : List α → List α
  | [] => [a]
  | b :: l => if le a b then a :: b :: l else b :: insertLe le a l

/-- Stable insertion sort by the boolean comparator `le`; for a transitive
total comparator the stably sorted permutation is unique, so this is the
list Python `list.sort` produces. -/
def pySort {α : Type} (le : α → α → Bool) : List α → List α
  | [] => []
  | a :: l => insertLe le a (pySort le l)

/-- Surviving entries of `_finalize_profiles`, finalized and sorted
(scrapper.py lines 417-435). -/
def finalizeSorted (m : ProfilesMap) : List Profile :=
  pySort profLe ((m.filter (fun kv => keepEntry kv.2)).map (fun kv => finalizeEntry kv.2))

/-- Embedding of `_finalize_profiles` (scrapper.py lines 416-436): drop
blacklisted entries, resolve each surviving entry's displayed beat, sort,
and slice to `max(30, length)` elements (which keeps everything). -/
def finalize_profiles (m : ProfilesMap) : List Profile :=
  (finalizeSorted m).take (max 30 (finalizeSorted m).length)

/-- Absolute URL as `find_article_links` observes it after `urljoin` and
`urlparse`: network location, path and query string (anchors are modelled
as already-resolved absolute URLs, since `urljoin` returns an absolute href
unchanged). -/
structure Url where
  netloc : String
  path : String
  query : String
deriving Repr, DecidableEq

/-- Python `full.split('?')[0]` on a URL: drop the query string
(scrapper.py line 348). -/
def stripQ (u : Url) : Url :=
  { u with query := "" }

/-- Attempt to match slash, four digits, slash, one or two digits, slash at
the head of the list, returning the remainder (one step of the dated-path
regex of scrapper.py line 347). -/
def ddSlash : List Char → Option (List Char)
  | e :: f :: g :: rest =>
    if isDig e && isDig f && g = '/' then some rest
    else if isDig e && f = '/' then some (g :: rest)
    else none
  | [e, f] => if isDig e && f = '/' then some [] else none
  | _ => none

/-- Whether the dated-path pattern (slash, four digits, slash, one or two
digits, slash, one or two digits, slash) matches at the head of the
list. -/
def matchDatedAt (l : List Char) : Bool :=
  match l with
  | sl :: a :: b :: c :: d :: s :: rest =>
    sl = '/' && isDig a && isDig b && isDig c && isDig d && s = '/' &&
      (match ddSlash rest with
       | some rest2 => (ddSlash rest2).isSome
       | none => false)
  | _ => false

/-- Python `re.search` for the dated-path pattern anywhere in the path. -/
def hasDatedPath : List Char → Bool
  | [] => false
  | c :: rest => matchDatedAt (c :: rest) || hasDatedPath rest

/-- Path keywords marking a link as article-like (scrapper.py line 347). -/
def articleKeys : List String :=
  ["/article", "/news/", "/story", "/opinion", "/feature", "/analysis",
   "/reports", "/sport", "/sports"]

/-- Path keywords marking a link as an index page to enqueue (scrapper.py
line 350). -/
def indexKeys : List String :=
  ["/author", "/authors", "/staff", "/contributors", "/profile"]

/-- Python `len(path.strip('/').split('/'))`: number of slash-separated
segments of the path with leading and trailing slashes removed
(scrapper.py line 350). -/
def pathDepth (path : String) : Nat :=
  (((path.data.dropWhile (fun c => c = '/')).reverse.dropWhile
      (fun c => c = '/')).reverse.count '/') + 1

/-- Stub of the network as the crawler sees it: whether robots.txt allows a
URL, and the list of resolved anchor URLs of a page (`none` models a
non-200 response or a raised exception). -/
structure CrawlWeb where
  allowed : Url → Bool
  fetch : Url → Option (List Url)

/-- Article-set update for one same-domain anchor (scrapper.py lines
346-348): add the query-stripped URL, deduplicated, when the lower-cased
path matches the dated pattern or contains an article keyword. -/
def addArticle (links : List Url) (a : Url) : List Url :=
  if hasDatedPath (pyLower a.path).data ||
      articleKeys.any (fun k => inStr k (pyLower a.path)) then
    if links.contains (stripQ a) then links else links ++ [stripQ a]
  else links

/-- Queue update for one same-domain anchor (scrapper.py lines 349-352):
enqueue the URL when its path looks index-like or is at most three segments
deep, unless it has been visited. -/
def addQueue (seen : List Url) (adds : List Url) (a : Url) : List Url :=
  if indexKeys.any (fun k => inStr k (pyLower a.path)) ||
      pathDepth (pyLower a.path) ≤ 3 then
    if seen.contains a then adds else adds ++ [a]
  else adds

/-- Per-anchor body of the crawl loop (scrapper.py lines 338-352): skip the
anchor when the crawl domain is not a substring of its lower-cased host,
otherwise update the article set and the queue. -/
def processAnchor (domain : String) (seen : List Url)
    (st : List Url × List Url) (a : Url) : List Url × List Url :=
  if !subList domain.data (pyLower a.netloc).data then st
  else (addArticle st.1 a, addQueue seen st.2 a)

/-- Cap on collected article links (`MAX_ARTICLE_URLS`, scrapper.py
line 34). -/
def MAX_ARTICLE_URLS : Nat := 800

/-- Breadth-first crawl loop of `find_article_links` (scrapper.py lines
325-355), with explicit fuel for termination: pop the next URL, skip it
when already visited, disallowed by robots or failing to fetch, otherwise
classify every anchor of the fetched page; stop when the queue is empty or
the article set has reached the cap. The Python set of collected links is
determinized as an insertion-ordered deduplicated list. -/
def crawlLoop (domain : String) (web : CrawlWeb) :
    Nat → List Url → List Url → List Url → List Url
  | 0, _, _, links => links
  | fuel + 1, to_visit, seen, links =>
    if MAX_ARTICLE_URLS ≤ links.length then links
    else
      match to_visit with
      | [] => links
      | url :: rest =>
        if seen.contains url then crawlLoop domain web fuel rest seen links
        else
          let seen' := url :: seen
          if !web.allowed url then crawlLoop domain web fuel rest seen' links
          else
            match web.fetch url with
            | none => crawlLoop domain web fuel rest seen' links
            | some anchors =>
              crawlLoop domain web fuel
                (rest ++ (anchors.foldl (processAnchor domain seen') (links, [])).2)
                seen'
                (anchors.foldl (processAnchor domain seen') (links, [])).1

/-- Seed paths enqueued alongside the base URL (scrapper.py line 322). -/
def crawlSeeds : List String :=
  ["", "/news", "/latest", "/world", "/articles", "/section", "/topics",
   "/author", "/authors", "/contributors", "/staff"]

/-- Embedding of `find_article_links` (scrapper.py lines 315-356) over a
stubbed network: crawl from the base URL and the seed paths, restricted by
a substring test of the crawl domain against each anchor host, and truncate
the collected article links to the cap. -/
def find_article_links (web : CrawlWeb) (base : Url) (fuel : Nat) : List Url :=
  let domain := pyLower base.netloc
  let to_visit := base :: crawlSeeds.map (fun s => if s = "" then base else ⟨base.netloc, s, ""⟩)
  (crawlLoop domain web fuel to_visit [] []).take MAX_ARTICLE_URLS

/-- Observable state of the checkpoint destination file and temporary file
during `_atomic_write_json`. -/
structure FS where
  dest : Option String
  tmp : Option String
deriving Repr, DecidableEq

/-- Trace of the observable file states along the atomic path of
`_atomic_write_json` (scrapper.py lines 42-50), one state per intermediate
point at which the process could be terminated: the initial state, the
state after `mkstemp` and after each partially completed write of the
payload into the temporary file (`json.dump` then `flush`/`fsync`), and
the state after the atomic `os.replace`, which installs the full payload
and removes the temporary file in one step. -/
def atomic_write_trace (dest0 : Option String) (payload : String) : List FS :=
  ⟨dest0, none⟩ ::
    (List.range (payload.length + 1)).map
      (fun k => ⟨dest0, some ⟨payload.data.take k⟩⟩) ++
    [⟨dest0, some payload⟩, ⟨some payload, none⟩]

/-- Whether the first character, if any, is not whitespace. -/
def headOk : List Char → Bool
  | [] => true
  | c :: _ => !pyIsWs c

/-- Whether the last character, if any, is not whitespace. -/
def lastOk : List Char → Bool
  | [] => true
  | [c] => !pyIsWs c
  | _ :: d :: ds => lastOk (d :: ds)

/-- Page observation with author Ann, beat Politics, dated 2024-01-01. -/
def pgPol1 : PageData := ⟨["Ann"], "T1", "2024-01-01", "Politics"⟩

/-- Page observation with author Ann, beat Politics, dated 2024-02-01. -/
def pgPol2 : PageData := ⟨["Ann"], "T2", "2024-02-01", "Politics"⟩

/-- Page observation with author Ann, beat Sports, dated 2024-01-15. -/
def pgSpo : PageData := ⟨["Ann"], "T3", "2024-01-15", "Sports"⟩

/-- Page observation whose extracted author list is the single-letter `A`. -/
def pgA : PageData := ⟨["A"], "T", "Unknown", "News"⟩

/-- Page observation whose extracted author list is the single-letter `B`. -/
def pgB : PageData := ⟨["B"], "T", "Unknown", "News"⟩

/-- Page observation authored by the two-letter name `Aa`. -/
def pgAa : PageData := ⟨["Aa"], "T", "Unknown", "News"⟩

/-- Page observation authored by the two-letter name `Bb`. -/
def pgBb : PageData := ⟨["Bb"], "T", "Unknown", "News"⟩

/-- Page observation authored by the two-letter name `Cd`. -/
def pgCd : PageData := ⟨["Cd"], "T", "Unknown", "News"⟩

/-- Profile map with thirty distinct author keys. -/
def bigMap : ProfilesMap :=
  (List.range 30).map
    (fun i => (toString i, ⟨toString i, [], "Unknown", "T", "u", "Unknown", 1⟩))

/-- Profile-map entry for an author that survives finalization. -/
def aliceEntry : Entry := ⟨"Alice", [("News", 1)], "News", "T", "u", "Unknown", 1⟩

/-- Profile map holding only the Alice entry. -/
def aliceMap : ProfilesMap := [("alice", aliceEntry)]

/-- Crawl base URL of the cross-domain example. -/
def exBase : Url := ⟨"example.com", "", ""⟩

/-- Anchor URL on a different host that merely contains the crawl domain as
a substring. -/
def evilUrl : Url := ⟨"evilexample.com", "/news/x", ""⟩

/-- Stub network: the base page links to `evilUrl`; every other fetch
fails. -/
def exWeb : CrawlWeb :=
  ⟨fun _ => true, fun u => if u = exBase then some [evilUrl] else none⟩

theorem lookup_mem {α β : Type} [BEq α] [LawfulBEq α] :
    ∀ (l : List (α × β)) (k : α) (v : β), l.lookup k = some v → (k, v) ∈ l := by
  intro l
  induction l with
  | nil => intro k v h; simp [List.lookup] at h
  | cons a rest ih =>
    intro k v h
    rw [show a = (a.1, a.2) from rfl, List.lookup_cons] at h
    by_cases hk : k == a.1
    · simp [hk] at h
      have : k = a.1 := eq_of_beq hk
      subst this; subst h
      exact List.mem_cons_self _ _
    · simp [Bool.eq_false_iff.mpr hk] at h
      exact List.mem_cons_of_mem _ (ih k v h)

theorem caseTable_ws1 : ∀ p ∈ caseTable, pyIsWs p.1 = false := by decide

theorem caseTable_ws2 : ∀ p ∈ caseTable, pyIsWs p.2 = false := by decide

theorem caseTable_zw1 : ∀ p ∈ caseTable, isZW p.1 = false := by decide

theorem caseTable_zw2 : ∀ p ∈ caseTable, isZW p.2 = false := by decide

theorem caseTable_punct1 : ∀ p ∈ caseTable, isPunct p.1 = false := by decide

theorem caseTable_punct2 : ∀ p ∈ caseTable, isPunct p.2 = false := by decide

theorem caseTable_alpha1 : ∀ p ∈ caseTable, p.1.isAlpha = true := by decide

theorem caseTable_alpha2 : ∀ p ∈ caseTable, p.2.isAlpha = true := by decide

theorem caseTable_low2 : ∀ p ∈ caseTable, lowChar p.2 = p.2 := by decide

theorem caseTable_up1 : ∀ p ∈ caseTable, upChar p.1 = p.1 := by decide

theorem lowChar_spec (c : Char) : lowChar c = c ∨ (c, lowChar c) ∈ caseTable := by
  unfold lowChar
  cases h : caseTable.lookup c with
  | none => simp
  | some d =>
    simp only [Option.getD_some]
    right
    exact lookup_mem caseTable c d h

theorem upChar_spec (c : Char) : upChar c = c ∨ (upChar c, c) ∈ caseTable := by
  unfold upChar
  cases h : (caseTable.map (fun p => (p.2, p.1))).lookup c with
  | none => simp
  | some d =>
    simp only [Option.getD_some]
    right
    have hmem := lookup_mem _ c d h
    rw [List.mem_map] at hmem
    obtain ⟨p, hp, hpe⟩ := hmem
    have h1 : p.2 = c := congrArg Prod.fst hpe
    have h2 : p.1 = d := congrArg Prod.snd hpe
    rw [show (d, c) = p from by rw [← h1, ← h2]]
    exact hp

theorem titleChar_true_eq (c : Char) (h : c.isAlpha = true) :
    titleChar true c = lowChar c := by
  simp [titleChar, h]

theorem titleChar_false_eq (c : Char) (h : c.isAlpha = true) :
    titleChar false c = upChar c := by
  simp [titleChar, h]

theorem titleChar_not_alpha (p : Bool) (c : Char) (h : c.isAlpha = false) :
    titleChar p c = c := by
  simp [titleChar, h]

theorem titleChar_eq (p : Bool) (c : Char) :
    titleChar p c = c ∨ (c, titleChar p c) ∈ caseTable ∨ (titleChar p c, c) ∈ caseTable := by
  by_cases ha : c.isAlpha
  · cases p with
    | true =>
      rw [titleChar_true_eq c ha]
      rcases lowChar_spec c with h | h
      · exact Or.inl h
      · exact Or.inr (Or.inl h)
    | false =>
      rw [titleChar_false_eq c ha]
      rcases upChar_spec c with h | h
      · exact Or.inl h
      · exact Or.inr (Or.inr h)
  · exact Or.inl (titleChar_not_alpha p c (Bool.eq_false_iff.mpr ha))

theorem titleChar_pyIsWs (p : Bool) (c : Char) : pyIsWs (titleChar p c) = pyIsWs c := by
  rcases titleChar_eq p c with h | h | h
  · rw [h]
  · have h1 : pyIsWs c = false := by simpa using caseTable_ws1 _ h
    have h2 : pyIsWs (titleChar p c) = false := by simpa using caseTable_ws2 _ h
    rw [h1, h2]
  · have h1 : pyIsWs c = false := by simpa using caseTable_ws2 _ h
    have h2 : pyIsWs (titleChar p c) = false := by simpa using caseTable_ws1 _ h
    rw [h1, h2]

theorem titleChar_isAlpha (p : Bool) (c : Char) : (titleChar p c).isAlpha = c.isAlpha := by
  rcases titleChar_eq p c with h | h | h
  · rw [h]
  · have h1 : c.isAlpha = true := by simpa using caseTable_alpha1 _ h
    have h2 : (titleChar p c).isAlpha = true := by simpa using caseTable_alpha2 _ h
    rw [h1, h2]
  · have h1 : c.isAlpha = true := by simpa using caseTable_alpha2 _ h
    have h2 : (titleChar p c).isAlpha = true := by simpa using caseTable_alpha1 _ h
    rw [h1, h2]

theorem titleChar_isZW (p : Bool) (c : Char) (h : isZW c = false) :
    isZW (titleChar p c) = false := by
  rcases titleChar_eq p c with hs | hs | hs
  · rw [hs]; exact h
  · simpa using caseTable_zw2 _ hs
  · simpa using caseTable_zw1 _ hs

theorem titleChar_isPunct (p : Bool) (c : Char) (h : isPunct c = false) :
    isPunct (titleChar p c) = false := by
  rcases titleChar_eq p c with hs | hs | hs
  · rw [hs]; exact h
  · simpa using caseTable_punct2 _ hs
  · simpa using caseTable_punct1 _ hs

theorem titleChar_idem (p : Bool) (c : Char) :
    titleChar p (titleChar p c) = titleChar p c := by
  by_cases ha : c.isAlpha
  · have hres : (titleChar p c).isAlpha = true := by rw [titleChar_isAlpha, ha]
    cases p with
    | true =>
      rw [titleChar_true_eq _ hres]
      rw [titleChar_true_eq c ha]
      rcases lowChar_spec c with hs | hs
      · rw [hs, hs]
      · simpa using caseTable_low2 _ hs
    | false =>
      rw [titleChar_false_eq _ hres]
      rw [titleChar_false_eq c ha]
      rcases upChar_spec c with hs | hs
      · rw [hs, hs]
      · simpa using caseTable_up1 _ hs
  · have hna := Bool.eq_false_iff.mpr ha
    rw [titleChar_not_alpha p c hna, titleChar_not_alpha p c hna]

theorem pyIsWs_not_alpha (c : Char) (h : pyIsWs c = true) : c.isAlpha = false := by
  simp only [pyIsWs, Bool.or_eq_true, decide_eq_true_eq] at h
  rcases h with ((((h | h) | h) | h) | h) | h <;> subst h <;> decide

theorem titleChar_of_ws (q : Bool) (c : Char) (h : pyIsWs c = true) :
    titleChar q c = c :=
  titleChar_not_alpha q c (pyIsWs_not_alpha c h)

theorem headOk_dropWhile (l : List Char) : headOk (l.dropWhile pyIsWs) = true := by
  induction l with
  | nil => rfl
  | cons c rest ih =>
    by_cases hc : pyIsWs c
    · simpa [List.dropWhile_cons, hc] using ih
    · simp [List.dropWhile_cons, hc, headOk]

theorem dropWhile_of_headOk (l : List Char) (h : headOk l = true) :
    l.dropWhile pyIsWs = l := by
  cases l with
  | nil => rfl
  | cons c rest =>
    simp only [headOk, Bool.not_eq_true'] at h
    simp [List.dropWhile_cons, h]

theorem dropTrail_cons (c : Char) (rest : List Char) :
    dropTrail (c :: rest) =
      match dropTrail rest with
      | [] => if pyIsWs c then [] else [c]
      | d :: ds => c :: d :: ds := rfl

theorem collapse_cons_ws_true (c : Char) (rest : List Char) (hc : pyIsWs c = true) :
    collapseAux pyIsWs true (c :: rest) = collapseAux pyIsWs true rest := by
  simp [collapseAux, hc]

theorem collapse_cons_ws_false (c : Char) (rest : List Char) (hc : pyIsWs c = true) :
    collapseAux pyIsWs false (c :: rest) = ' ' :: collapseAux pyIsWs true rest := by
  simp [collapseAux, hc]

theorem collapse_cons_nws (b : Bool) (c : Char) (rest : List Char)
    (hc : pyIsWs c = false) :
    collapseAux pyIsWs b (c :: rest) = c :: collapseAux pyIsWs false rest := by
  simp [collapseAux, hc]

theorem dropTrail_idem (l : List Char) : dropTrail (dropTrail l) = dropTrail l := by
  induction l with
  | nil => rfl
  | cons c rest ih =>
    cases h : dropTrail rest with
    | nil =>
      rw [dropTrail_cons, h]
      by_cases hc : pyIsWs c
      · simp [hc, dropTrail]
      · simp [hc, dropTrail]
    | cons d ds =>
      rw [h] at ih
      rw [dropTrail_cons, h, dropTrail_cons, ih]

theorem headOk_dropTrail (l : List Char) (h : headOk l = true) :
    headOk (dropTrail l) = true := by
  cases l with
  | nil => rfl
  | cons c rest =>
    simp only [headOk, Bool.not_eq_true'] at h
    rw [dropTrail_cons]
    cases hr : dropTrail rest with
    | nil => simp [h, headOk]
    | cons d ds => simp [headOk, h]

theorem mem_dropTrail (l : List Char) (c : Char) (h : c ∈ dropTrail l) : c ∈ l := by
  induction l with
  | nil => simp [dropTrail] at h
  | cons a rest ih =>
    rw [dropTrail_cons] at h
    cases hr : dropTrail rest with
    | nil =>
      rw [hr] at h
      by_cases ha : pyIsWs a
      · simp [ha] at h
      · simp [ha] at h
        simp [h]
    | cons d ds =>
      rw [hr] at h
      rcases List.mem_cons.mp h with h1 | h1
      · simp [h1]
      · exact List.mem_cons_of_mem _ (ih (hr ▸ h1))

theorem lastOk_dropTrail (l : List Char) : lastOk (dropTrail l) = true := by
  induction l with
  | nil => rfl
  | cons c rest ih =>
    rw [dropTrail_cons]
    cases hr : dropTrail rest with
    | nil =>
      by_cases hc : pyIsWs c
      · simp [hc, lastOk]
      · simp [hc, lastOk]
    | cons d ds =>
      rw [hr] at ih
      simpa [lastOk] using ih

theorem collapse_ne_nil (l : List Char) (b : Bool) (hl : lastOk l = true)
    (hne : l ≠ []) : collapseAux pyIsWs b l ≠ [] := by
  induction l generalizing b with
  | nil => exact absurd rfl hne
  | cons c rest ih =>
    cases rest with
    | nil =>
      simp only [lastOk, Bool.not_eq_true'] at hl
      simp [collapseAux, hl]
    | cons d ds =>
      have hl' : lastOk (d :: ds) = true := hl
      by_cases hc : pyIsWs c
      · by_cases hb : b
        · subst hb
          rw [collapse_cons_ws_true c _ hc]
          exact ih true hl' (by simp)
        · simp only [Bool.not_eq_true] at hb
          subst hb
          rw [collapse_cons_ws_false c _ hc]
          simp
      · rw [collapse_cons_nws b c _ (Bool.eq_false_iff.mpr hc)]
        simp

theorem headOk_collapse_true (l : List Char) :
    headOk (collapseAux pyIsWs true l) = true := by
  induction l with
  | nil => rfl
  | cons c rest ih =>
    by_cases hc : pyIsWs c
    · simpa [collapseAux, hc] using ih
    · simp [collapseAux, hc, headOk]

theorem dropWhile_collapse (l : List Char) :
    (collapseAux pyIsWs false l).dropWhile pyIsWs = collapseAux pyIsWs true l := by
  induction l with
  | nil => rfl
  | cons c rest ih =>
    by_cases hc : pyIsWs c
    · simp only [collapseAux, hc, if_true, Bool.false_eq_true, if_false]
      rw [List.dropWhile_cons]
      simp only [show pyIsWs ' ' = true from rfl, if_true]
      exact dropWhile_of_headOk _ (headOk_collapse_true rest)
    · simp [collapseAux, hc, List.dropWhile_cons]

theorem collapse_collapse (l : List Char) (b b' : Bool) (hbb : b' = true → b = true) :
    collapseAux pyIsWs b' (collapseAux pyIsWs b l) = collapseAux pyIsWs b l := by
  induction l generalizing b b' with
  | nil => rfl
  | cons c rest ih =>
    by_cases hc : pyIsWs c
    · by_cases hb : b
      · subst hb
        simpa [collapseAux, hc] using ih true b' (fun _ => rfl)
      · simp only [Bool.not_eq_true] at hb
        subst hb
        have hb' : b' = false := by
          cases hbe : b'
          · rfl
          · exact absurd (hbb hbe) (by simp)
        subst hb'
        simp only [collapseAux, hc, if_true, Bool.false_eq_true, if_false]
        simp only [show pyIsWs ' ' = true from rfl, if_true]
        rw [ih true true (fun _ => rfl)]
    · simp only [collapseAux, hc, Bool.false_eq_true, if_false]
      rw [ih false false (by simp)]

theorem dropTrail_collapse (l : List Char) (b : Bool) :
    dropTrail (collapseAux pyIsWs b l) = collapseAux pyIsWs b (dropTrail l) := by
  induction l generalizing b with
  | nil => rfl
  | cons c rest ih =>
    by_cases hc : pyIsWs c
    · by_cases hb : b
      · subst hb
        rw [collapse_cons_ws_true c rest hc, ih true, dropTrail_cons]
        cases hr : dropTrail rest with
        | nil => simp [hc, collapseAux]
        | cons d ds => rw [collapse_cons_ws_true c _ hc]
      · simp only [Bool.not_eq_true] at hb
        subst hb
        rw [collapse_cons_ws_false c rest hc]
        cases hr : dropTrail rest with
        | nil =>
          have h1 : dropTrail (collapseAux pyIsWs true rest) = [] := by
            rw [ih true, hr]; rfl
          rw [dropTrail_cons ' ' (collapseAux pyIsWs true rest), h1,
            dropTrail_cons c rest, hr]
          simp only [hc, if_true, collapseAux]
          decide
        | cons d ds =>
          have hlast : lastOk (d :: ds) = true := hr ▸ lastOk_dropTrail rest
          have hne : collapseAux pyIsWs true (d :: ds) ≠ [] :=
            collapse_ne_nil _ true hlast (by simp)
          have h1 : dropTrail (collapseAux pyIsWs true rest) =
              collapseAux pyIsWs true (d :: ds) := by rw [ih true, hr]
          rw [dropTrail_cons ' ' (collapseAux pyIsWs true rest), h1,
            dropTrail_cons c rest, hr]
          cases hC : collapseAux pyIsWs true (d :: ds) with
          | nil => exact absurd hC hne
          | cons e es => rw [collapse_cons_ws_false c (d :: ds) hc, hC]
    · have hcf : pyIsWs c = false := Bool.eq_false_iff.mpr hc
      rw [collapse_cons_nws b c rest hcf,
        dropTrail_cons c (collapseAux pyIsWs false rest), ih false,
        dropTrail_cons c rest]
      cases hr : dropTrail rest with
      | nil => simp [hcf, collapseAux]
      | cons d ds =>
        have hlast : lastOk (d :: ds) = true := hr ▸ lastOk_dropTrail rest
        have hne : collapseAux pyIsWs false (d :: ds) ≠ [] :=
          collapse_ne_nil _ false hlast (by simp)
        cases hC : collapseAux pyIsWs false (d :: ds) with
        | nil => exact absurd hC hne
        | cons e es => rw [collapse_cons_nws b c (d :: ds) hcf, hC]

theorem mem_collapse (p : Char → Bool) (l : List Char) (b : Bool) (c : Char)
    (h : c ∈ collapseAux p b l) : c ∈ l ∨ c = ' ' := by
  induction l generalizing b with
  | nil => simp [collapseAux] at h
  | cons a rest ih =>
    by_cases ha : p a
    · by_cases hb : b
      · subst hb
        rcases ih true (by simpa [collapseAux, ha] using h) with h1 | h1
        · exact Or.inl (List.mem_cons_of_mem _ h1)
        · exact Or.inr h1
      · simp only [Bool.not_eq_true] at hb
        subst hb
        simp only [collapseAux, ha, if_true, Bool.false_eq_true, if_false] at h
        rcases List.mem_cons.mp h with h1 | h1
        · exact Or.inr h1
        · rcases ih true h1 with h2 | h2
          · exact Or.inl (List.mem_cons_of_mem _ h2)
          · exact Or.inr h2
    · simp only [collapseAux, ha, Bool.false_eq_true, if_false] at h
      rcases List.mem_cons.mp h with h1 | h1
      · exact Or.inl (by simp [h1])
      · rcases ih false h1 with h2 | h2
        · exact Or.inl (List.mem_cons_of_mem _ h2)
        · exact Or.inr h2

theorem titleAux_length (l : List Char) (q : Bool) :
    (titleAux q l).length = l.length := by
  induction l generalizing q with
  | nil => rfl
  | cons c rest ih => simp [titleAux, ih]

theorem titleAux_idem (l : List Char) (q : Bool) :
    titleAux q (titleAux q l) = titleAux q l := by
  induction l generalizing q with
  | nil => rfl
  | cons c rest ih =>
    simp only [titleAux]
    rw [titleChar_idem, titleChar_isAlpha, ih]

theorem mem_titleAux (l : List Char) (q : Bool) (d : Char)
    (h : d ∈ titleAux q l) : ∃ p c, c ∈ l ∧ d = titleChar p c := by
  induction l generalizing q with
  | nil => simp [titleAux] at h
  | cons c rest ih =>
    simp only [titleAux] at h
    rcases List.mem_cons.mp h with h1 | h1
    · exact ⟨q, c, by simp, h1⟩
    · obtain ⟨p, a, ha, he⟩ := ih _ h1
      exact ⟨p, a, List.mem_cons_of_mem _ ha, he⟩

theorem dropTrail_titleAux (l : List Char) (q : Bool) :
    dropTrail (titleAux q l) = titleAux q (dropTrail l) := by
  induction l generalizing q with
  | nil => rfl
  | cons c rest ih =>
    simp only [titleAux]
    cases hr : dropTrail rest with
    | nil =>
      have : titleAux c.isAlpha (dropTrail rest) = [] := by rw [hr]; rfl
      rw [dropTrail, ih, this]
      by_cases hc : pyIsWs c
      · simp [dropTrail, hr, hc, titleChar_pyIsWs, titleAux]
      · simp [dropTrail, hr, hc, titleChar_pyIsWs, titleAux]
    | cons d ds =>
      rw [dropTrail, ih, hr]
      simp [dropTrail, hr, titleAux]

theorem collapse_titleAux (l : List Char) (b q : Bool) (hbq : b = true → q = false) :
    collapseAux pyIsWs b (titleAux q l) = titleAux q (collapseAux pyIsWs b l) := by
  induction l generalizing b q with
  | nil => rfl
  | cons c rest ih =>
    by_cases hc : pyIsWs c
    · have hca : c.isAlpha = false := pyIsWs_not_alpha c hc
      rw [show titleAux q (c :: rest) = c :: titleAux false rest from by
        rw [titleAux, titleChar_of_ws q c hc, hca]]
      by_cases hb : b
      · subst hb
        have hq : q = false := hbq rfl
        subst hq
        rw [collapse_cons_ws_true c (titleAux false rest) hc,
          collapse_cons_ws_true c rest hc]
        exact ih true false (fun _ => rfl)
      · simp only [Bool.not_eq_true] at hb
        subst hb
        rw [collapse_cons_ws_false c (titleAux false rest) hc,
          collapse_cons_ws_false c rest hc]
        rw [show titleAux q (' ' :: collapseAux pyIsWs true rest) =
            ' ' :: titleAux false (collapseAux pyIsWs true rest) from by
          rw [titleAux, titleChar_of_ws q ' ' (by decide)]; rfl]
        rw [ih true false (fun _ => rfl)]
    · have hcf : pyIsWs c = false := Bool.eq_false_iff.mpr hc
      have hc' : pyIsWs (titleChar q c) = false := by
        rw [titleChar_pyIsWs]; exact hcf
      rw [show titleAux q (c :: rest) = titleChar q c :: titleAux c.isAlpha rest from rfl]
      rw [collapse_cons_nws b (titleChar q c) (titleAux c.isAlpha rest) hc',
        collapse_cons_nws b c rest hcf]
      rw [show titleAux q (c :: collapseAux pyIsWs false rest) =
          titleChar q c :: titleAux c.isAlpha (collapseAux pyIsWs false rest) from rfl]
      rw [ih false c.isAlpha (by simp)]

theorem headOk_titleAux (l : List Char) (q : Bool) (h : headOk l = true) :
    headOk (titleAux q l) = true := by
  cases l with
  | nil => rfl
  | cons c rest =>
    simp only [headOk, Bool.not_eq_true'] at h
    simp [titleAux, headOk, titleChar_pyIsWs, h]

theorem map_eq_self_of {α : Type} (f : α → α) :
    ∀ l : List α, (∀ c ∈ l, f c = c) → l.map f = l := by
  intro l
  induction l with
  | nil => intro _; rfl
  | cons c rest ih =>
    intro h
    simp only [List.map_cons]
    rw [h c (by simp), ih (fun a ha => h a (List.mem_cons_of_mem _ ha))]


theorem pyStrip_collapseWs (x : List Char) :
    pyStrip (collapseWs x) = dropTrail (collapseAux pyIsWs true x) := by
  unfold pyStrip collapseWs
  rw [dropWhile_collapse]

theorem cleanedName_stripped (s : String) :
    cleanedName s = dropTrail (collapseAux pyIsWs true (preClean s)) := by
  unfold cleanedName
  exact pyStrip_collapseWs _

theorem preClean_chars (s : String) :
    ∀ c ∈ preClean s, isZW c = false ∧ isPunct c = false := by
  intro c hc
  unfold preClean at hc
  rw [List.mem_map] at hc
  obtain ⟨a, ha, he⟩ := hc
  by_cases hp : isPunct a
  · rw [← he]
    simp only [hp, if_true]
    constructor <;> decide
  · rw [← he]
    simp only [hp, if_false]
    have hz : (!isZW a) = true := (List.mem_filter.mp ha).2
    exact ⟨by simpa using hz, Bool.eq_false_iff.mpr hp⟩

theorem cleanedName_headOk (s : String) : headOk (cleanedName s) = true := by
  rw [cleanedName_stripped]
  exact headOk_dropTrail _ (headOk_collapse_true _)

theorem cleanedName_dropTrail (s : String) :
    dropTrail (cleanedName s) = cleanedName s := by
  rw [cleanedName_stripped]
  exact dropTrail_idem _

theorem cleanedName_collapse (s : String) :
    collapseWs (cleanedName s) = cleanedName s := by
  rw [cleanedName_stripped]
  unfold collapseWs
  rw [dropTrail_collapse (preClean s) true,
    collapse_collapse (dropTrail (preClean s)) true false (by simp)]

theorem cleanedName_chars (s : String) :
    ∀ c ∈ cleanedName s, isZW c = false ∧ isPunct c = false := by
  intro c hc
  rw [cleanedName_stripped] at hc
  have h1 : c ∈ collapseAux pyIsWs true (preClean s) := mem_dropTrail _ _ hc
  rcases mem_collapse pyIsWs (preClean s) true c h1 with h2 | h2
  · exact preClean_chars s c h2
  · subst h2
    constructor <;> decide

theorem normalize_fixed (u : List Char)
    (hhead : headOk u = true)
    (htrail : dropTrail u = u)
    (hcoll : collapseWs u = u)
    (hchars : ∀ c ∈ u, isZW c = false ∧ isPunct c = false)
    (hlen : ¬ u.length ≤ 1)
    (hpfx : hasByPfx (pyTitle u) = false) :
    normalize_name ⟨pyTitle u⟩ = ⟨pyTitle u⟩ := by
  have ht_head : headOk (pyTitle u) = true := headOk_titleAux u false hhead
  have ht_trail : dropTrail (pyTitle u) = pyTitle u := by
    unfold pyTitle
    rw [dropTrail_titleAux, htrail]
  have ht_strip : pyStrip (pyTitle u) = pyTitle u := by
    unfold pyStrip
    rw [dropWhile_of_headOk _ ht_head, ht_trail]
  have ht_coll : collapseWs (pyTitle u) = pyTitle u := by
    unfold pyTitle collapseWs
    rw [collapse_titleAux u false false (by simp)]
    unfold collapseWs at hcoll
    rw [hcoll]
  have ht_chars : ∀ c ∈ pyTitle u, isZW c = false ∧ isPunct c = false := by
    intro c hc
    obtain ⟨p, a, ha, he⟩ := mem_titleAux u false c hc
    obtain ⟨hz, hp⟩ := hchars a ha
    rw [he]
    exact ⟨titleChar_isZW p a hz, titleChar_isPunct p a hp⟩
  have hcn : cleanedName ⟨pyTitle u⟩ = pyTitle u := by
    unfold cleanedName preClean
    rw [show (⟨pyTitle u⟩ : String).data = pyTitle u from rfl]
    rw [ht_strip]
    rw [show dropByPfx (pyTitle u) = pyTitle u from by
      unfold dropByPfx; rw [hpfx]; simp]
    rw [List.filter_eq_self.mpr
      (fun a ha => by simp [(ht_chars a ha).1])]
    rw [map_eq_self_of _ _ (fun a ha => by simp [(ht_chars a ha).2])]
    rw [ht_coll, ht_strip]
  have hlen2 : ¬ (pyTitle u).length ≤ 1 := by
    unfold pyTitle
    rw [titleAux_length]
    exact hlen
  unfold normalize_name
  rw [hcn, if_neg hlen2]
  rw [show pyTitle (pyTitle u) = pyTitle u from titleAux_idem u false]

/-- Claim C2, counterexample: name normalization is not idempotent on the
input `by.john` — the first pass turns the dot into a space and title-cases
to `By John`, and the second pass then strips the leading `By` prefix,
yielding `John`. -/
theorem C2_normalize_name_not_idem :
    normalize_name (normalize_name "by.john") ≠ normalize_name "by.john" := by
  decide

/-- Claim C2, amended: name normalization is idempotent on every input
whose normalized form does not itself begin with the `By`-prefix pattern
(the letters `B`/`b`, `y`/`Y` followed by a colon or whitespace) that the
first cleaning step of `normalize_name` strips. -/
theorem C2_normalize_name_idem (s : String)
    (h : hasByPfx (normalize_name s).data = false) :
    normalize_name (normalize_name s) = normalize_name s := by
  by_cases hlen : (cleanedName s).length ≤ 1
  · have hs : normalize_name s = "" := by
      unfold normalize_name
      rw [if_pos hlen]
    rw [hs]
    decide
  · have hs : normalize_name s = ⟨pyTitle (cleanedName s)⟩ := by
      unfold normalize_name
      rw [if_neg hlen]
    rw [hs] at h ⊢
    exact normalize_fixed (cleanedName s) (cleanedName_headOk s)
      (cleanedName_dropTrail s) (cleanedName_collapse s) (cleanedName_chars s)
      hlen h

/-- Witness for the amended claim C2 at a concrete input. -/
theorem C2_normalize_name_idem_witness :
    hasByPfx (normalize_name "John Smith").data = false ∧
    normalize_name (normalize_name "John Smith") = normalize_name "John Smith" :=
  ⟨by decide, C2_normalize_name_idem "John Smith" (by decide)⟩

/-- Claim C3: for every pair of date strings, `_prefer_newer` returns false
when the candidate is empty or `Unknown`; returns true when the candidate is
known and the existing date is empty or `Unknown`; when both parse under
the year-month-day pattern it returns true exactly when the candidate is
chronologically strictly later; when the remaining guard cases fail to
parse it returns true exactly when the candidate string is strictly longer;
and in particular the three concrete examples of the specification hold. -/
theorem C3_prefer_newer_spec (e c : String) :
    ((c = "" ∨ c = "Unknown") → prefer_newer e c = false) ∧
    (c ≠ "" → c ≠ "Unknown" → (e = "" ∨ e = "Unknown") → prefer_newer e c = true) ∧
    (∀ cd ed, parse_iso c = some cd → parse_iso e = some ed →
      (prefer_newer e c = true ↔ dateLt ed cd = true)) ∧
    (c ≠ "" → c ≠ "Unknown" → e ≠ "" → e ≠ "Unknown" →
      (parse_iso c = none ∨ parse_iso e = none) →
      (prefer_newer e c = true ↔ e.length < c.length)) ∧
    prefer_newer "2024-01-01" "2024-02-01" = true ∧
    prefer_newer "Unknown" "2024-02-01" = true ∧
    prefer_newer "2024-02-01" "Unknown" = false := by
  refine ⟨?_, ?_, ?_, ?_, by decide, by decide, by decide⟩
  · intro h
    rcases h with h | h <;> subst h <;> simp [prefer_newer]
  · intro h1 h2 h3
    rcases h3 with h | h <;> subst h <;> simp [prefer_newer, h1, h2]
  · intro cd ed hc he
    have hc1 : c ≠ "" := by
      intro h; subst h
      rw [show parse_iso "" = none from by decide] at hc
      simp at hc
    have hc2 : c ≠ "Unknown" := by
      intro h; subst h
      rw [show parse_iso "Unknown" = none from by decide] at hc
      simp at hc
    have he1 : e ≠ "" := by
      intro h; subst h
      rw [show parse_iso "" = none from by decide] at he
      simp at he
    have he2 : e ≠ "Unknown" := by
      intro h; subst h
      rw [show parse_iso "Unknown" = none from by decide] at he
      simp at he
    simp [prefer_newer, hc1, hc2, he1, he2, hc, he]
  · intro h1 h2 h3 h4 h5
    rcases h5 with h5 | h5
    · cases ho : parse_iso e <;> simp [prefer_newer, h1, h2, h3, h4, h5, ho]
    · cases ho : parse_iso c <;> simp [prefer_newer, h1, h2, h3, h4, h5, ho]

/-- Witness for claim C3 exercising each guarded case at concrete inputs. -/
theorem C3_prefer_newer_spec_witness :
    prefer_newer "2024-05-05" "" = false ∧
    prefer_newer "" "2024-05-05" = true ∧
    prefer_newer "2024-01-01" "2024-02-01" = true ∧
    prefer_newer "abc" "longabc" = true := by
  refine ⟨(C3_prefer_newer_spec "2024-05-05" "").1 (Or.inl rfl),
    (C3_prefer_newer_spec "" "2024-05-05").2.1 (by decide) (by decide) (Or.inl rfl),
    ((C3_prefer_newer_spec "2024-01-01" "2024-02-01").2.2.1 (2024, 2, 1) (2024, 1, 1)
      (by decide) (by decide)).mpr (by decide),
    ((C3_prefer_newer_spec "abc" "longabc").2.2.2.1 (by decide) (by decide)
      (by decide) (by decide) (Or.inl (by decide))).mpr (by decide)⟩

/-- Claim C1: along the atomic path of `_atomic_write_json`, at every
intermediate point of the write — including termination mid-write — the
destination file holds either the prior complete snapshot or the new
complete snapshot, never a truncated or partially written payload; partial
progress is confined to the temporary file and the destination changes only
at the atomic rename. -/
theorem C1_atomic_write_dest (dest0 : Option String) (payload : String) (s : FS)
    (h : s ∈ atomic_write_trace dest0 payload) :
    s.dest = dest0 ∨ s.dest = some payload := by
  unfold atomic_write_trace at h
  rcases List.mem_append.mp h with h1 | h1
  · rcases List.mem_cons.mp h1 with h2 | h2
    · left; rw [h2]
    · rw [List.mem_map] at h2
      obtain ⟨k, _, he⟩ := h2
      left; rw [← he]
  · rcases List.mem_cons.mp h1 with h2 | h2
    · left; rw [h2]
    · rcases List.mem_cons.mp h2 with h3 | h3
      · right; rw [h3]
      · simp at h3

/-- Witness for claim C1: a mid-write state of a concrete checkpoint. -/
theorem C1_atomic_write_dest_witness :
    (⟨some "old", some "a"⟩ : FS) ∈ atomic_write_trace (some "old") "ab" ∧
    ((⟨some "old", some "a"⟩ : FS).dest = some "old" ∨
      (⟨some "old", some "a"⟩ : FS).dest = some "ab") :=
  ⟨by decide, C1_atomic_write_dest (some "old") "ab" _ (by decide)⟩

theorem dGet_dSet {β : Type} :
    ∀ (m : PyDict β) (k : String) (v : β), dGet (dSet m k v) k = some v := by
  intro m
  induction m with
  | nil =>
    intro k v
    simp [dGet, dSet, List.lookup]
  | cons a rest ih =>
    intro k v
    by_cases ha : a.1 = k
    · have hsome : ((a :: rest).lookup k).isSome = true := by
        rw [show a = (a.1, a.2) from rfl, List.lookup_cons, ha]
        simp
      unfold dSet
      rw [if_pos hsome]
      rw [show (a :: rest).map (fun kv => if kv.1 = k then (k, v) else kv) =
          (k, v) :: rest.map (fun kv => if kv.1 = k then (k, v) else kv) from by
        simp [ha]]
      unfold dGet
      rw [List.lookup_cons]
      simp
    · have hskip : (a :: rest).lookup k = rest.lookup k := by
        rw [show a = (a.1, a.2) from rfl, List.lookup_cons]
        have : (k == a.1) = false := by
          rw [beq_eq_false_iff_ne]
          exact fun hc => ha hc.symm
        rw [this]
      have ihk := ih k v
      unfold dSet at ihk ⊢
      rw [hskip]
      cases hsome : (rest.lookup k).isSome with
      | true =>
        rw [if_pos hsome] at ihk
        rw [if_pos rfl]
        rw [show (a :: rest).map (fun kv => if kv.1 = k then (k, v) else kv) =
            a :: rest.map (fun kv => if kv.1 = k then (k, v) else kv) from by
          simp [ha]]
        unfold dGet at ihk ⊢
        rw [show a = (a.1, a.2) from rfl, List.lookup_cons]
        have : (k == a.1) = false := by
          rw [beq_eq_false_iff_ne]
          exact fun hc => ha hc.symm
        rw [this]
        exact ihk
      | false =>
        rw [if_neg (by simp [hsome])] at ihk
        rw [if_neg (by simp)]
        unfold dGet at ihk ⊢
        rw [List.cons_append, show a = (a.1, a.2) from rfl, List.lookup_cons]
        have : (k == a.1) = false := by
          rw [beq_eq_false_iff_ne]
          exact fun hc => ha hc.symm
        rw [this]
        exact ihk

theorem mem_dSet {β : Type} (m : PyDict β) (k : String) (v : β)
    (kv : String × β) (h : kv ∈ dSet m k v) : kv ∈ m ∨ kv = (k, v) := by
  unfold dSet at h
  by_cases hs : (m.lookup k).isSome
  · rw [if_pos hs] at h
    rw [List.mem_map] at h
    obtain ⟨a, ha, he⟩ := h
    by_cases hk : a.1 = k
    · right; rw [← he]; simp [hk]
    · left; rw [← he]; simpa [hk] using ha
  · rw [if_neg hs] at h
    rcases List.mem_append.mp h with h1 | h1
    · exact Or.inl h1
    · right; simpa using h1

theorem lookup_none_not_mem {β : Type} :
    ∀ (m : PyDict β) (k : String), m.lookup k = none → k ∉ m.map Prod.fst := by
  intro m
  induction m with
  | nil => intro k _; simp
  | cons a rest ih =>
    intro k h
    rw [show a = (a.1, a.2) from rfl, List.lookup_cons] at h
    cases hk : (k == a.1) with
    | true => rw [hk] at h; simp at h
    | false =>
      rw [hk] at h
      simp only [List.map_cons, List.mem_cons]
      rintro (hc | hc)
      · rw [hc] at hk
        simp at hk
      · exact ih k h hc

theorem keys_dSet_some {β : Type} (m : PyDict β) (k : String) (v : β)
    (hs : (m.lookup k).isSome = true) :
    (dSet m k v).map Prod.fst = m.map Prod.fst := by
  unfold dSet
  rw [if_pos hs, List.map_map]
  apply List.map_congr_left
  intro a _
  by_cases hk : a.1 = k
  · simp [Function.comp, hk]
  · simp [Function.comp, hk]

theorem keys_dSet_none {β : Type} (m : PyDict β) (k : String) (v : β)
    (hs : (m.lookup k).isSome = false) :
    (dSet m k v).map Prod.fst = m.map Prod.fst ++ [k] := by
  unfold dSet
  rw [if_neg (by simp [hs])]
  simp

theorem nodup_keys_dSet {β : Type} (m : PyDict β) (k : String) (v : β)
    (h : (m.map Prod.fst).Nodup) : ((dSet m k v).map Prod.fst).Nodup := by
  cases hs : (m.lookup k).isSome with
  | true => rw [keys_dSet_some m k v hs]; exact h
  | false =>
    rw [keys_dSet_none m k v hs]
    rw [List.nodup_append]
    refine ⟨h, List.nodup_singleton _, ?_⟩
    intro a ha hb
    rw [List.mem_singleton] at hb
    rw [hb] at ha
    exact lookup_none_not_mem m k (by simpa using hs) ha

theorem newEntry_count (url title pub_date sect norm : String) :
    (newEntry url title pub_date sect norm).articles_count = 1 := rfl

theorem updatedEntry_count (url title pub_date sect : String) (e : Entry) :
    (updatedEntry url title pub_date sect e).articles_count =
      e.articles_count + 1 := by
  unfold updatedEntry
  dsimp only
  split <;> split <;> rfl

theorem updatedEntry_beat_counts (url title pub_date sect : String) (e : Entry) :
    (updatedEntry url title pub_date sect e).beat_counts =
      if sect ≠ "" then
        dSet e.beat_counts sect ((dGet e.beat_counts sect).getD 0 + 1)
      else e.beat_counts := by
  unfold updatedEntry
  dsimp only
  split <;> split <;> rfl

theorem extractLoop_cons (minp : Nat) (m : ProfilesMap) (url : String)
    (opg : Option PageData) (rest : List (String × Option PageData)) :
    extractLoop minp m ((url, opg) :: rest) =
      if minp ≤ m.length then m
      else
        match opg with
        | none => extractLoop minp m rest
        | some pg => extractLoop minp (processPage m url pg) rest := rfl

theorem mergeAuthor_mem (url title pub_date sect : String) (m : ProfilesMap)
    (author : String) (kv : String × Entry)
    (h : kv ∈ mergeAuthor url title pub_date sect m author) :
    kv ∈ m ∨ 1 ≤ kv.2.articles_count := by
  unfold mergeAuthor at h
  by_cases hn : normalize_name author = ""
  · rw [if_pos hn] at h
    exact Or.inl h
  · rw [if_neg hn] at h
    cases hg : dGet m (pyLower (normalize_name author)) with
    | none =>
      rw [hg] at h
      rcases mem_dSet _ _ _ _ h with h1 | h1
      · exact Or.inl h1
      · right
        rw [h1]
        rw [show ((pyLower (normalize_name author)),
            newEntry url title pub_date sect (normalize_name author)).2 =
          newEntry url title pub_date sect (normalize_name author) from rfl]
        rw [newEntry_count]
    | some e =>
      rw [hg] at h
      rcases mem_dSet _ _ _ _ h with h1 | h1
      · exact Or.inl h1
      · right
        rw [h1]
        rw [show ((pyLower (normalize_name author)),
            updatedEntry url title pub_date sect e).2 =
          updatedEntry url title pub_date sect e from rfl]
        rw [updatedEntry_count]
        exact Nat.le_add_left 1 _

theorem foldl_merge_mem (url title pub_date sect : String) :
    ∀ (authors : List String) (m : ProfilesMap) (kv : String × Entry),
      kv ∈ authors.foldl (mergeAuthor url title pub_date sect) m →
      kv ∈ m ∨ 1 ≤ kv.2.articles_count := by
  intro authors
  induction authors with
  | nil => intro m kv h; exact Or.inl h
  | cons a rest ih =>
    intro m kv h
    rw [List.foldl_cons] at h
    rcases ih _ kv h with h1 | h1
    · exact mergeAuthor_mem url title pub_date sect m a kv h1
    · exact Or.inr h1

theorem processPage_mem (m : ProfilesMap) (url : String) (pg : PageData)
    (kv : String × Entry) (h : kv ∈ processPage m url pg) :
    kv ∈ m ∨ 1 ≤ kv.2.articles_count := by
  unfold processPage at h
  exact foldl_merge_mem url pg.title pg.pub_date (normalize_beat pg.sect)
    pg.authors m kv h

theorem extractLoop_mem (minp : Nat) :
    ∀ (pages : List (String × Option PageData)) (m : ProfilesMap)
      (kv : String × Entry), kv ∈ extractLoop minp m pages →
      kv ∈ m ∨ 1 ≤ kv.2.articles_count := by
  intro pages
  induction pages with
  | nil => intro m kv h; exact Or.inl h
  | cons pg rest ih =>
    intro m kv h
    obtain ⟨url, opg⟩ := pg
    rw [extractLoop_cons] at h
    by_cases hb : minp ≤ m.length
    · rw [if_pos hb] at h; exact Or.inl h
    · rw [if_neg hb] at h
      cases opg with
      | none => exact ih m kv h
      | some pg =>
        rcases ih _ kv h with h1 | h1
        · exact processPage_mem m url pg kv h1
        · exact Or.inr h1

theorem mem_insertLe {α : Type} (le : α → α → Bool) (a x : α) :
    ∀ l : List α, x ∈ insertLe le a l ↔ x = a ∨ x ∈ l := by
  intro l
  induction l with
  | nil => simp [insertLe]
  | cons b l ih =>
    rw [insertLe]
    by_cases hc : le a b
    · simp [hc]
    · rw [if_neg hc]
      rw [List.mem_cons, ih, List.mem_cons]
      tauto

theorem pySort_mem {α : Type} (le : α → α → Bool) (x : α) :
    ∀ l : List α, x ∈ pySort le l ↔ x ∈ l := by
  intro l
  induction l with
  | nil => simp [pySort]
  | cons a l ih =>
    rw [pySort, mem_insertLe, ih, List.mem_cons]

theorem insertLe_pairwise {α : Type} (le : α → α → Bool)
    (htrans : ∀ x y z : α, le x y = true → le y z = true → le x z = true)
    (htotal : ∀ x y : α, (le x y || le y x) = true) (a : α) :
    ∀ l : List α, List.Pairwise (fun x y => le x y = true) l →
      List.Pairwise (fun x y => le x y = true) (insertLe le a l) := by
  intro l
  induction l with
  | nil => intro _; simp [insertLe]
  | cons b l ih =>
    intro h
    rw [insertLe]
    by_cases hc : le a b
    · rw [if_pos hc]
      refine List.Pairwise.cons ?_ h
      intro x hx
      rcases List.mem_cons.mp hx with hx | hx
      · rw [hx]; exact hc
      · exact htrans a b x hc ((List.pairwise_cons.mp h).1 x hx)
    · rw [if_neg hc]
      obtain ⟨hb, hl⟩ := List.pairwise_cons.mp h
      refine List.Pairwise.cons ?_ (ih hl)
      intro x hx
      rcases (mem_insertLe le a x l).mp hx with hx | hx
      · rw [hx]
        have ht := htotal a b
        rw [Bool.or_eq_true] at ht
        rcases ht with h1 | h1
        · exact absurd h1 hc
        · exact h1
      · exact hb x hx

theorem pySort_pairwise {α : Type} (le : α → α → Bool)
    (htrans : ∀ x y z : α, le x y = true → le y z = true → le x z = true)
    (htotal : ∀ x y : α, (le x y || le y x) = true) :
    ∀ l : List α, List.Pairwise (fun x y => le x y = true) (pySort le l) := by
  intro l
  induction l with
  | nil => simp [pySort]
  | cons a l ih =>
    rw [pySort]
    exact insertLe_pairwise le htrans htotal a _ ih

theorem mem_finalize (m : ProfilesMap) (p : Profile)
    (h : p ∈ finalize_profiles m) :
    ∃ kv, kv ∈ m ∧ keepEntry kv.2 = true ∧ p = finalizeEntry kv.2 := by
  unfold finalize_profiles at h
  have h1 : p ∈ finalizeSorted m := List.Sublist.mem h (List.take_sublist _ _)
  unfold finalizeSorted at h1
  have h2 : p ∈ (m.filter (fun kv => keepEntry kv.2)).map
      (fun kv => finalizeEntry kv.2) :=
    (pySort_mem profLe p _).mp h1
  rw [List.mem_map] at h2
  obtain ⟨kv, hkv, he⟩ := h2
  exact ⟨kv, (List.mem_filter.mp hkv).1, (List.mem_filter.mp hkv).2, he.symm⟩

/-- Claim C5: finalization drops every entry whose display name, stripped
and case-folded, is blacklisted (staff, editorial, team, contributors,
unknown, s); hence an author displayed as `Staff` never appears in the
finalized profile list, whatever its article count. -/
theorem C5_finalize_blacklist (m : ProfilesMap) (p : Profile)
    (h : p ∈ finalize_profiles m) :
    blacklist.contains (pyLower (pyStripStr p.name)) = false ∧
    p.name ≠ "Staff" := by
  obtain ⟨kv, _, hkeep, he⟩ := mem_finalize m p h
  have hname : p.name = kv.2.name := by rw [he]; rfl
  have hcontains : blacklist.contains (pyLower (pyStripStr kv.2.name)) = false := by
    by_contra hc
    rw [Bool.not_eq_false] at hc
    unfold keepEntry at hkeep
    dsimp only at hkeep
    rw [hc] at hkeep
    simp at hkeep
  refine ⟨by rw [hname]; exact hcontains, ?_⟩
  intro hstaff
  rw [hstaff] at hname
  rw [← hname] at hcontains
  exact absurd hcontains (by decide)

/-- Witness for claim C5: a surviving author in a concrete profile map. -/
theorem C5_finalize_blacklist_witness :
    finalizeEntry aliceEntry ∈ finalize_profiles aliceMap ∧
    blacklist.contains (pyLower (pyStripStr (finalizeEntry aliceEntry).name)) = false ∧
    (finalizeEntry aliceEntry).name ≠ "Staff" :=
  ⟨by decide, (C5_finalize_blacklist aliceMap _ (by decide)).1,
    (C5_finalize_blacklist aliceMap _ (by decide)).2⟩

theorem profLe_trans (a b c : Profile) (h1 : profLe a b = true)
    (h2 : profLe b c = true) : profLe a c = true := by
  simp only [profLe, Bool.or_eq_true, Bool.and_eq_true, decide_eq_true_eq] at h1 h2 ⊢
  rcases h1 with h1 | ⟨h1, h1n⟩ <;> rcases h2 with h2 | ⟨h2, h2n⟩
  · exact Or.inl (lt_trans h2 h1)
  · exact Or.inl (by omega)
  · exact Or.inl (by omega)
  · exact Or.inr ⟨by omega, le_trans h1n h2n⟩

theorem profLe_total (a b : Profile) : (profLe a b || profLe b a) = true := by
  simp only [profLe, Bool.or_eq_true, Bool.and_eq_true, decide_eq_true_eq]
  rcases Nat.lt_trichotomy a.articles_count b.articles_count with h | h | h
  · exact Or.inr (Or.inl h)
  · rcases le_total a.name b.name with hn | hn
    · exact Or.inl (Or.inr ⟨h, hn⟩)
    · exact Or.inr (Or.inr ⟨h.symm, hn⟩)
  · exact Or.inl (Or.inl h)

/-- Claim C6: for every profile map, the finalized profile list is sorted by
descending article count and, among entries with equal article count, by
ascending display name. -/
theorem C6_finalize_sorted (m : ProfilesMap) :
    List.Pairwise (fun a b : Profile =>
      b.articles_count < a.articles_count ∨
        (a.articles_count = b.articles_count ∧ a.name ≤ b.name))
      (finalize_profiles m) := by
  have hs : List.Pairwise (fun a b : Profile => profLe a b = true)
      (finalizeSorted m) :=
    pySort_pairwise profLe profLe_trans profLe_total _
  have hp : List.Pairwise (fun a b : Profile => profLe a b = true)
      (finalize_profiles m) := by
    unfold finalize_profiles
    exact List.Pairwise.sublist (List.take_sublist _ _) hs
  refine hp.imp ?_
  intro a b hab
  simpa only [profLe, Bool.or_eq_true, Bool.and_eq_true, decide_eq_true_eq]
    using hab

/-- Claim C10: every profile in the finalized output of a run started from
the empty map has article count at least one — entries are created with
count one, only ever incremented, and finalization copies the count through
unchanged. -/
theorem C10_finalized_count_positive (ps : List (String × Option PageData))
    (p : Profile) (h : p ∈ finalize_profiles (extractLoop 30 [] ps)) :
    1 ≤ p.articles_count := by
  obtain ⟨kv, hkv, _, he⟩ := mem_finalize _ _ h
  rcases extractLoop_mem 30 ps [] kv hkv with h1 | h1
  · simp at h1
  · have hc : p.articles_count = kv.2.articles_count := by rw [he]; rfl
    rw [hc]
    exact h1

/-- Witness for claim C10: a concrete one-page run. -/
theorem C10_finalized_count_positive_witness :
    (⟨"Cd", "News", "T", "u1", "Unknown", 1⟩ : Profile) ∈
      finalize_profiles (extractLoop 30 [] [("u1", some pgCd)]) ∧
    1 ≤ (⟨"Cd", "News", "T", "u1", "Unknown", 1⟩ : Profile).articles_count :=
  ⟨by decide, C10_finalized_count_positive [("u1", some pgCd)] _ (by decide)⟩

theorem maxByCount_mem :
    ∀ (l : List (String × Nat)) (best : String × Nat),
      maxByCount best l = best ∨ maxByCount best l ∈ l := by
  intro l
  induction l with
  | nil => intro best; exact Or.inl rfl
  | cons p rest ih =>
    intro best
    rw [maxByCount]
    by_cases hc : best.2 < p.2
    · rw [if_pos hc]
      rcases ih p with h | h
      · rw [h]; exact Or.inr (List.mem_cons_self _ _)
      · exact Or.inr (List.mem_cons_of_mem _ h)
    · rw [if_neg hc]
      rcases ih best with h | h
      · exact Or.inl h
      · exact Or.inr (List.mem_cons_of_mem _ h)

theorem maxByCount_ge :
    ∀ (l : List (String × Nat)) (best : String × Nat),
      best.2 ≤ (maxByCount best l).2 ∧
      ∀ x ∈ l, x.2 ≤ (maxByCount best l).2 := by
  intro l
  induction l with
  | nil => intro best; exact ⟨le_refl _, by simp⟩
  | cons p rest ih =>
    intro best
    rw [maxByCount]
    by_cases hc : best.2 < p.2
    · rw [if_pos hc]
      obtain ⟨h1, h2⟩ := ih p
      refine ⟨le_trans (le_of_lt hc) h1, ?_⟩
      intro x hx
      rcases List.mem_cons.mp hx with h | h
      · rw [h]; exact h1
      · exact h2 x h
    · rw [if_neg hc]
      obtain ⟨h1, h2⟩ := ih best
      refine ⟨h1, ?_⟩
      intro x hx
      rcases List.mem_cons.mp hx with h | h
      · rw [h]; exact le_trans (Nat.le_of_not_lt hc) h1
      · exact h2 x h

/-- Claim C4: a first observation of a name creates an entry with article
count one and a beat-count map seeded with one count for the observed beat;
a later observation of the same name increments the article count and the
observed beat's count by one; finalization displays the beat with the
highest count; and in particular three observations for one author with
beats Politics, Politics, Sports yield one profile with beat Politics and
article count three. -/
theorem C4_merge_counts :
    (∀ (m : ProfilesMap) (url title pub_date sect author : String),
      normalize_name author ≠ "" → sect ≠ "" →
      dGet m (pyLower (normalize_name author)) = none →
      dGet (mergeAuthor url title pub_date sect m author)
          (pyLower (normalize_name author)) =
        some (newEntry url title pub_date sect (normalize_name author)) ∧
      (newEntry url title pub_date sect (normalize_name author)).articles_count
        = 1 ∧
      (newEntry url title pub_date sect (normalize_name author)).beat_counts
        = [(sect, 1)]) ∧
    (∀ (m : ProfilesMap) (url title pub_date sect author : String) (e : Entry),
      normalize_name author ≠ "" → sect ≠ "" →
      dGet m (pyLower (normalize_name author)) = some e →
      dGet (mergeAuthor url title pub_date sect m author)
          (pyLower (normalize_name author)) =
        some (updatedEntry url title pub_date sect e) ∧
      (updatedEntry url title pub_date sect e).articles_count =
        e.articles_count + 1 ∧
      dGet (updatedEntry url title pub_date sect e).beat_counts sect =
        some ((dGet e.beat_counts sect).getD 0 + 1)) ∧
    (∀ (v : Entry) (hd : String × Nat) (t : List (String × Nat)),
      v.beat_counts = hd :: t → (maxByCount hd t).1 ≠ "" →
      (finalizeEntry v).beat = (maxByCount hd t).1 ∧
      (maxByCount hd t = hd ∨ maxByCount hd t ∈ t) ∧
      ∀ bc ∈ v.beat_counts, bc.2 ≤ (maxByCount hd t).2) ∧
    ((finalize_profiles (extractLoop 30 []
        [("u1", some pgPol1), ("u2", some pgPol2), ("u3", some pgSpo)])).map
      (fun p => (p.name, p.beat, p.articles_count)) = [("Ann", "Politics", 3)]) := by
  refine ⟨?_, ?_, ?_, by decide⟩
  · intro m url title pub_date sect author hn hs hg
    unfold mergeAuthor
    rw [if_neg hn, hg]
    refine ⟨dGet_dSet m _ _, rfl, ?_⟩
    unfold newEntry
    simp [hs]
  · intro m url title pub_date sect author e hn hs hg
    unfold mergeAuthor
    rw [if_neg hn, hg]
    refine ⟨dGet_dSet m _ _, updatedEntry_count url title pub_date sect e, ?_⟩
    rw [updatedEntry_beat_counts, if_pos hs]
    exact dGet_dSet _ _ _
  · intro v hd t hbc hne
    refine ⟨?_, maxByCount_mem t hd, ?_⟩
    · unfold finalizeEntry
      rw [hbc]
      simp [hne]
    · intro bc hm
      rw [hbc] at hm
      rcases List.mem_cons.mp hm with h | h
      · rw [h]
        exact (maxByCount_ge t hd).1
      · exact (maxByCount_ge t hd).2 bc h

/-- Witness for claim C4 exercising the create, update and finalize parts
at concrete inputs. -/
theorem C4_merge_counts_witness :
    (dGet (mergeAuthor "u" "T" "d" "Politics" [] "Ann")
        (pyLower (normalize_name "Ann")) =
      some (newEntry "u" "T" "d" "Politics" (normalize_name "Ann")) ∧
     (newEntry "u" "T" "d" "Politics" (normalize_name "Ann")).articles_count = 1 ∧
     (newEntry "u" "T" "d" "Politics" (normalize_name "Ann")).beat_counts =
       [("Politics", 1)]) ∧
    (dGet (mergeAuthor "u2" "T2" "d2" "Politics"
          (mergeAuthor "u" "T" "d" "Politics" [] "Ann") "Ann")
        (pyLower (normalize_name "Ann")) =
      some (updatedEntry "u2" "T2" "d2" "Politics"
        (newEntry "u" "T" "d" "Politics" (normalize_name "Ann")))) ∧
    ((finalizeEntry aliceEntry).beat = (maxByCount ("News", 1) []).1) := by
  refine ⟨C4_merge_counts.1 [] "u" "T" "d" "Politics" "Ann"
      (by decide) (by decide) (by decide), ?_, ?_⟩
  · exact (C4_merge_counts.2.1 (mergeAuthor "u" "T" "d" "Politics" [] "Ann")
      "u2" "T2" "d2" "Politics" "Ann"
      (newEntry "u" "T" "d" "Politics" (normalize_name "Ann"))
      (by decide) (by decide) (by decide)).1
  · exact (C4_merge_counts.2.2.1 aliceEntry ("News", 1) [] rfl (by decide)).1

theorem addArticle_mem (links : List Url) (a u : Url)
    (h : u ∈ addArticle links a) : u ∈ links ∨ u = stripQ a := by
  unfold addArticle at h
  by_cases h1 : (hasDatedPath (pyLower a.path).data ||
      articleKeys.any (fun k => inStr k (pyLower a.path)))
  · rw [if_pos h1] at h
    by_cases h2 : links.contains (stripQ a)
    · rw [if_pos h2] at h; exact Or.inl h
    · rw [if_neg h2] at h
      rcases List.mem_append.mp h with h3 | h3
      · exact Or.inl h3
      · right; simpa using h3
  · rw [if_neg h1] at h; exact Or.inl h

theorem processAnchor_links (domain : String) (seen : List Url)
    (st : List Url × List Url) (a u : Url)
    (h : u ∈ (processAnchor domain seen st a).1) :
    u ∈ st.1 ∨ subList domain.data (pyLower u.netloc).data = true := by
  unfold processAnchor at h
  by_cases hd : subList domain.data (pyLower a.netloc).data
  · rw [if_neg (by simp [hd])] at h
    rcases addArticle_mem st.1 a u h with h1 | h1
    · exact Or.inl h1
    · right
      rw [h1]
      rw [show (pyLower (stripQ a).netloc) = pyLower a.netloc from rfl]
      exact hd
  · rw [if_pos (by simp [hd])] at h
    exact Or.inl h

theorem foldl_processAnchor (domain : String) (seen : List Url) :
    ∀ (anchors : List Url) (st : List Url × List Url) (u : Url),
      u ∈ (anchors.foldl (processAnchor domain seen) st).1 →
      u ∈ st.1 ∨ subList domain.data (pyLower u.netloc).data = true := by
  intro anchors
  induction anchors with
  | nil => intro st u h; exact Or.inl h
  | cons a anchors ih =>
    intro st u h
    rw [List.foldl_cons] at h
    rcases ih _ u h with h1 | h1
    · exact processAnchor_links domain seen st a u h1
    · exact Or.inr h1

theorem crawlLoop_succ (domain : String) (web : CrawlWeb) (fuel : Nat)
    (tv seen links : List Url) :
    crawlLoop domain web (fuel + 1) tv seen links =
      if MAX_ARTICLE_URLS ≤ links.length then links
      else
        match tv with
        | [] => links
        | url :: rest =>
          if seen.contains url then crawlLoop domain web fuel rest seen links
          else
            if !web.allowed url then
              crawlLoop domain web fuel rest (url :: seen) links
            else
              match web.fetch url with
              | none => crawlLoop domain web fuel rest (url :: seen) links
              | some anchors =>
                crawlLoop domain web fuel
                  (rest ++ (anchors.foldl (processAnchor domain (url :: seen))
                    (links, [])).2)
                  (url :: seen)
                  (anchors.foldl (processAnchor domain (url :: seen))
                    (links, [])).1 := rfl

theorem crawlLoop_inv (domain : String) (web : CrawlWeb) :
    ∀ (fuel : Nat) (tv seen links : List Url),
      (∀ v ∈ links, subList domain.data (pyLower v.netloc).data = true) →
      ∀ u ∈ crawlLoop domain web fuel tv seen links,
        subList domain.data (pyLower u.netloc).data = true := by
  intro fuel
  induction fuel with
  | zero => intro tv seen links hl u hu; exact hl u hu
  | succ n ih =>
    intro tv seen links hl u hu
    rw [crawlLoop_succ] at hu
    by_cases hcap : MAX_ARTICLE_URLS ≤ links.length
    · rw [if_pos hcap] at hu; exact hl u hu
    · rw [if_neg hcap] at hu
      cases tv with
      | nil => exact hl u hu
      | cons url rest =>
        dsimp only at hu
        by_cases hseen : seen.contains url
        · rw [if_pos hseen] at hu
          exact ih rest seen links hl u hu
        · rw [if_neg hseen] at hu
          by_cases hallow : web.allowed url
          · rw [if_neg (by simp [hallow])] at hu
            cases hf : web.fetch url with
            | none =>
              rw [hf] at hu
              exact ih rest (url :: seen) links hl u hu
            | some anchors =>
              rw [hf] at hu
              refine ih _ (url :: seen) _ ?_ u hu
              intro v hv
              rcases foldl_processAnchor domain (url :: seen) anchors
                  (links, []) v hv with h1 | h1
              · exact hl v h1
              · exact h1
          · rw [if_pos (by simp [hallow])] at hu
            exact ih rest (url :: seen) links hl u hu

/-- Claim C7, counterexample: the crawler keeps a resolved anchor whose
host `evilexample.com` differs from the crawl domain `example.com` (the
code's check is substring containment, not host equality), so an
ArticleCandidate need not be same-domain as the detected website. -/
theorem C7_crawler_cross_domain :
    evilUrl ∈ find_article_links exWeb exBase 50 ∧
    evilUrl.netloc ≠ exBase.netloc := by
  constructor <;> decide

/-- Claim C7, amended: for every base URL and crawled page, the crawler
discards any resolved anchor URL whose lower-cased host does not contain
the crawl domain as a substring, so every ArticleCandidate's lower-cased
host contains the crawl domain as a substring (it need not equal it). -/
theorem C7_crawler_domain_substring (web : CrawlWeb) (base : Url)
    (fuel : Nat) (u : Url) (h : u ∈ find_article_links web base fuel) :
    subList (pyLower base.netloc).data (pyLower u.netloc).data = true := by
  unfold find_article_links at h
  dsimp only at h
  have h1 : u ∈ crawlLoop (pyLower base.netloc) web fuel
      (base :: crawlSeeds.map
        (fun s => if s = "" then base else ⟨base.netloc, s, ""⟩)) [] [] :=
    List.Sublist.mem h (List.take_sublist _ _)
  exact crawlLoop_inv (pyLower base.netloc) web fuel _ [] [] (by simp) u h1

/-- Witness for the amended claim C7: the collected cross-domain URL's host
contains the crawl domain as a substring. -/
theorem C7_crawler_domain_substring_witness :
    evilUrl ∈ find_article_links exWeb exBase 50 ∧
    subList (pyLower exBase.netloc).data (pyLower evilUrl.netloc).data = true :=
  ⟨by decide, C7_crawler_domain_substring exWeb exBase 50 evilUrl (by decide)⟩

/-- Claim C8, counterexample: running the pipeline over three fetched pages
whose extracted authors are `A`, `A`, `B` produces an empty finalized
profile list — single-character names are erased by `normalize_name`
(length at most one becomes the empty string) and skipped by the merge —
not the claimed two-entry list. -/
theorem C8_pipeline_single_letter_empty :
    finalize_profiles (extractLoop 30 []
      [("u1", some pgA), ("u2", some pgA), ("u3", some pgB)]) = [] := by
  decide

/-- Claim C8, amended: running the pipeline over exactly three fetched
pages whose extracted authors are the two-letter names `Aa`, `Aa`, `Bb`
respectively produces a finalized profile list with exactly two entries,
ordered as `Aa` with article count two followed by `Bb` with article count
one. -/
theorem C8_pipeline_two_authors :
    ((finalize_profiles (extractLoop 30 []
        [("u1", some pgAa), ("u2", some pgAa), ("u3", some pgBb)])).map
      (fun p => (p.name, p.articles_count)) = [("Aa", 2), ("Bb", 1)]) ∧
    (finalize_profiles (extractLoop 30 []
        [("u1", some pgAa), ("u2", some pgAa), ("u3", some pgBb)])).length = 2 := by
  constructor <;> decide

theorem mergeAuthor_nodup (url title pub_date sect : String) (m : ProfilesMap)
    (author : String) (h : (m.map Prod.fst).Nodup) :
    ((mergeAuthor url title pub_date sect m author).map Prod.fst).Nodup := by
  unfold mergeAuthor
  by_cases hn : normalize_name author = ""
  · rw [if_pos hn]; exact h
  · rw [if_neg hn]
    cases hg : dGet m (pyLower (normalize_name author)) with
    | none => exact nodup_keys_dSet _ _ _ h
    | some e => exact nodup_keys_dSet _ _ _ h

theorem foldl_merge_nodup (url title pub_date sect : String) :
    ∀ (authors : List String) (m : ProfilesMap), (m.map Prod.fst).Nodup →
      ((authors.foldl (mergeAuthor url title pub_date sect) m).map
        Prod.fst).Nodup := by
  intro authors
  induction authors with
  | nil => intro m h; exact h
  | cons a rest ih =>
    intro m h
    rw [List.foldl_cons]
    exact ih _ (mergeAuthor_nodup url title pub_date sect m a h)

theorem processPage_nodup (m : ProfilesMap) (url : String) (pg : PageData)
    (h : (m.map Prod.fst).Nodup) :
    ((processPage m url pg).map Prod.fst).Nodup := by
  unfold processPage
  exact foldl_merge_nodup url pg.title pg.pub_date (normalize_beat pg.sect)
    pg.authors m h

theorem extractLoop_nodup (minp : Nat) :
    ∀ (pages : List (String × Option PageData)) (m : ProfilesMap),
      (m.map Prod.fst).Nodup →
      ((extractLoop minp m pages).map Prod.fst).Nodup := by
  intro pages
  induction pages with
  | nil => intro m h; exact h
  | cons pg rest ih =>
    intro m h
    obtain ⟨url, opg⟩ := pg
    rw [extractLoop_cons]
    by_cases hb : minp ≤ m.length
    · rw [if_pos hb]; exact h
    · rw [if_neg hb]
      cases opg with
      | none => exact ih m h
      | some pg => exact ih _ (processPage_nodup m url pg h)

theorem extractLoop_stop (minp : Nat) (m : ProfilesMap)
    (h : minp ≤ m.length) : ∀ l, extractLoop minp m l = m := by
  intro l
  cases l with
  | nil => rfl
  | cons pg rest =>
    obtain ⟨url, opg⟩ := pg
    rw [extractLoop_cons, if_pos h]

/-- Claim C9: the `extract_profiles` loop breaks before fetching the next
URL as soon as the in-memory profile map holds at least thirty entries
(the `min_profiles` default) — the keys of a map built by the loop are
distinct author keys — so article URLs past that point contribute nothing
to the result even when more URLs remain. -/
theorem C9_extract_min_profiles :
    (∀ (m : ProfilesMap) (pg : String × Option PageData)
        (rest : List (String × Option PageData)),
      30 ≤ m.length → extractLoop 30 m (pg :: rest) = m) ∧
    (∀ (m : ProfilesMap) (ps extra : List (String × Option PageData)),
      30 ≤ (extractLoop 30 m ps).length →
      extractLoop 30 m (ps ++ extra) = extractLoop 30 m ps) ∧
    (∀ ps : List (String × Option PageData),
      ((extractLoop 30 [] ps).map Prod.fst).Nodup) := by
  refine ⟨?_, ?_, ?_⟩
  · intro m pg rest h
    exact extractLoop_stop 30 m h (pg :: rest)
  · intro m ps extra
    induction ps generalizing m with
    | nil =>
      intro h
      rw [List.nil_append]
      exact extractLoop_stop 30 m h extra
    | cons pg rest ih =>
      intro h
      obtain ⟨url, opg⟩ := pg
      rw [List.cons_append, extractLoop_cons]
      rw [extractLoop_cons] at h
      by_cases hb : 30 ≤ m.length
      · rw [if_pos hb]
        rw [extractLoop_cons, if_pos hb]
      · rw [if_neg hb]
        rw [if_neg hb] at h
        rw [extractLoop_cons, if_neg hb]
        cases opg with
        | none => exact ih m h
        | some pg => exact ih _ h
  · intro ps
    exact extractLoop_nodup 30 ps [] (by simp)

/-- Witness for claim C9: a thirty-entry map stops the loop at once. -/
theorem C9_extract_min_profiles_witness :
    extractLoop 30 bigMap [("u", none)] = bigMap ∧
    extractLoop 30 bigMap ([] ++ [("u", none)]) = extractLoop 30 bigMap [] :=
  ⟨C9_extract_min_profiles.1 bigMap ("u", none) [] (by decide),
   C9_extract_min_profiles.2.1 bigMap [] [("u", none)] (by decide)⟩

end NewsTrace
